import Mathlib

/-
Verification of the CMT (cooperative multitasking) core of the sd-pgmr
firmware: message dispatch (src/sw/pico/src/cmt/cmt.c `message_loop`),
handler registry (`cmt_msg_hdlr_add_for_core`), the scheduled-message
delta queue (`_schedule_core_msg_in_ms`, `_on_recurring_interrupt`,
`scheduled_msg_cancel3`, `scheduled_msg_exists2`) and the fixed pools
(src/sw/pico/src/cmt/cmt_heap.c).

Modelling conventions:
- function pointers (message handlers) are modelled as `Nat` addresses;
  `NULL_MSG_HDLR` becomes `none` in an `Option Nat`;
- the `msg_data_value_t` payload union is modelled as an opaque `Nat` tag
  (no claim inspects the payload);
- the posting-system stamp fields `n` and `t` of `cmt_msg_t` are omitted
  (no claim concerns them);
- `int32_t`/`uint` arithmetic is modelled on `Int`/`Nat` (the delta-queue
  arithmetic stays far from the 2^31 bound for the quantities the claims
  discuss);
- linked lists (handler chains, the scheduled-message list, pool free
  lists) are modelled as Lean `List`s, the `next` pointer giving the
  list order; `in_use` flags of live pool entries are carried by the pool
  model;
- the scheduled-message entry carries one specification-only ghost field
  `schedAt` (the tick count at which the entry was created); the code
  never reads it.
-/

-- ######################################################################
-- Messages and handler identities (cmt_t.h)
-- ######################################################################

/-- MSG_PERIODIC_RT from the MSG_ID_ enum (value 4). -/
def MSG_PERIODIC_RT : Nat := 4

/-- MSG_HDLR_CORE_BOTH is ((uint)-1), i.e. 0xFFFFFFFF on the target. -/
def MSG_HDLR_CORE_BOTH : Nat := 4294967295

/-- Model of `cmt_msg_t`: id, abort flag, forced handler (`hdlr`), and an
opaque payload tag standing for `msg_data_value_t data`. -/
structure CmtMsg where
  id : Nat
  abort : Bool
  hdlr : Option Nat
  tag : Nat
deriving DecidableEq

/-- Handler address of the file-static `_housekeep0_msg_hdlr` (any value
distinct from client handler addresses and from `HOUSEKEEP1_HDLR_ID`). -/
def HOUSEKEEP0_HDLR_ID : Nat := 1000

/-- Handler address of the file-static `_housekeep1_msg_hdlr`. -/
def HOUSEKEEP1_HDLR_ID : Nat := 1001

/-- The MSG_PERIODIC_RT message built by `cmt_msg_init2(&msg,
MSG_PERIODIC_RT, _housekeep0_msg_hdlr)`: abort false, forced handler set. -/
def hkMsg0 : CmtMsg := { id := MSG_PERIODIC_RT, abort := false, hdlr := some HOUSEKEEP0_HDLR_ID, tag := 0 }

/-- The MSG_PERIODIC_RT message built for core 1. -/
def hkMsg1 : CmtMsg := { id := MSG_PERIODIC_RT, abort := false, hdlr := some HOUSEKEEP1_HDLR_ID, tag := 0 }

-- ######################################################################
-- Handler registry (cmt.c: cmt_msg_hdlrs, cmt_msg_hdlr_add_for_core)
-- ######################################################################

/-- Model of `cmt_msg_hdlr_ll_ent_t`: handler address and core tag.
(`in_use` and `next` are representation details of the pool/list.) -/
structure CmtMsgHdlrLLEnt where
  handler : Nat
  corenum : Nat
deriving DecidableEq

/-- The registry `cmt_msg_hdlrs[MSG_ID_CNT]`: per-message-id list heads. -/
def cmt_msg_hdlrs_empty : Nat → List CmtMsgHdlrLLEnt := fun _ => []

/-- `cmt_msg_hdlr_add_for_core`: allocates an entry, sets
`ent->corenum = corenum & 0x00000001` and prepends it to
`cmt_msg_hdlrs[id]`. -/
def cmt_msg_hdlr_add_for_core (id : Nat) (hdlr : Nat) (corenum : Nat)
    (tbl : Nat → List CmtMsgHdlrLLEnt) : Nat → List CmtMsgHdlrLLEnt :=
  fun i => if i = id then { handler := hdlr, corenum := corenum &&& 1 } :: tbl i else tbl i

/-- The registered-handler walk of `message_loop`
(`while (!msg.abort && handler_entry) { if (corenum matches) invoke; }`).
`env` gives the semantics of each handler address (the handler receives
the message by pointer and may mutate it, e.g. set `abort`). Returns the
trace of invoked handler addresses and the final message value. -/
def walkHandlers (env : Nat → CmtMsg → CmtMsg) (corenum : Nat) :
    List CmtMsgHdlrLLEnt → CmtMsg → List Nat × CmtMsg
  | [], msg => ([], msg)
  | ent :: rest, msg =>
    if msg.abort then ([], msg)
    else if ent.corenum = corenum ∨ ent.corenum = MSG_HDLR_CORE_BOTH then
      let msg1 := env ent.handler msg
      let r := walkHandlers env corenum rest msg1
      (ent.handler :: r.1, r.2)
    else walkHandlers env corenum rest msg

/-- One dispatch of a dequeued message inside `message_loop`: if
`msg.hdlr != NULL_MSG_HDLR` invoke the forced handler first; then, if
`!msg.abort` (after the forced handler ran), walk
`cmt_msg_hdlrs[msg.id]` (the id as possibly rewritten by the forced
handler). Returns the invocation trace and the final message. -/
def message_loop_dispatch (env : Nat → CmtMsg → CmtMsg)
    (tbl : Nat → List CmtMsgHdlrLLEnt) (corenum : Nat) (msg : CmtMsg) :
    List Nat × CmtMsg :=
  let step1 : List Nat × CmtMsg :=
    match msg.hdlr with
    | some h => ([h], env h msg)
    | none => ([], msg)
  if step1.2.abort then step1
  else
    let r := walkHandlers env corenum (tbl step1.2.id) step1.2
    (step1.1 ++ r.1, r.2)

-- ######################################################################
-- Scheduled messages (cmt.c: the delta queue)
-- ######################################################################

/-- Model of `cmt_sch_msg_data_t` (the payload of a
`cmt_schmsgdata_ll_ent_t`); `schedAt` is a specification-only ghost field
recording the tick count at creation, never read by the algorithm. -/
structure CmtSchMsgData where
  remaining : Int
  corenum : Nat
  ms_requested : Int
  msg : CmtMsg
  schedAt : Nat
deriving DecidableEq

/-- The scheduled-message linked list `cmt_smd_ll`. -/
abbrev SmdList := List CmtSchMsgData

/-- The insertion walk of `_schedule_core_msg_in_ms`: at each node, if the
new entry's remaining ≤ the node's remaining, reduce the node's remaining
by the new entry's and insert before it; otherwise reduce the new entry's
remaining by the node's and continue. -/
def smdInsert (newEntry : CmtSchMsgData) : SmdList → SmdList
  | [] => [newEntry]
  | entry :: rest =>
    if newEntry.remaining ≤ entry.remaining then
      newEntry :: { entry with remaining := entry.remaining - newEntry.remaining } :: rest
    else
      entry :: smdInsert { newEntry with remaining := newEntry.remaining - entry.remaining } rest

/-- `_schedule_core_msg_in_ms(core_num, ms, msg)`: allocate an entry, set
corenum / ms_requested / remaining := ms, copy the message, insert into
the delta list. `schedAt` is the ghost creation time. -/
def _schedule_core_msg_in_ms (schedAt : Nat) (core_num : Nat) (ms : Int)
    (msg : CmtMsg) (l : SmdList) : SmdList :=
  smdInsert { remaining := ms, corenum := core_num, ms_requested := ms, msg := msg, schedAt := schedAt } l

/-- The firing cascade of `_on_recurring_interrupt`:
`while (head && 0 >= head->remaining) { post to head's core; free; }`.
Returns the (core, msg) posts in order and the surviving list. -/
def fireDue : SmdList → List (Nat × CmtMsg) × SmdList
  | [] => ([], [])
  | e :: rest =>
    if e.remaining ≤ 0 then
      let r := fireDue rest
      ((e.corenum, e.msg) :: r.1, r.2)
    else ([], e :: rest)

/-- The scheduled-message part of one `_on_recurring_interrupt` tick:
decrement the head's remaining; if it reaches ≤ 0, run the firing
cascade. -/
def smdTick (l : SmdList) : List (Nat × CmtMsg) × SmdList :=
  match l with
  | [] => ([], [])
  | e :: rest =>
    let e1 := { e with remaining := e.remaining - 1 }
    if e1.remaining ≤ 0 then fireDue (e1 :: rest) else ([], e1 :: rest)

/-- The match test of `scheduled_msg_cancel3`:
`smd.corenum == corenum && msg.id == sched_msg_id && msg.hdlr == hdlr`. -/
def entMatches (sched_msg_id : Nat) (hdlr : Option Nat) (corenum : Nat)
    (e : CmtSchMsgData) : Bool :=
  e.corenum == corenum && e.msg.id == sched_msg_id && e.msg.hdlr == hdlr

/-- The delta fold-in of `scheduled_msg_cancel3`:
`if (entry->next) entry->next->schmsg_data.remaining += retval`. -/
def foldHeadAdd (retval : Int) : SmdList → SmdList
  | [] => []
  | nxt :: more => { nxt with remaining := nxt.remaining + retval } :: more

/-- `scheduled_msg_cancel3(sched_msg_id, hdlr, corenum)`: scan for the
first matching entry; remove it, add its remaining to the next entry, and
return its remaining. If nothing matches, return 0 with the list
unchanged. -/
def scheduled_msg_cancel3 (sched_msg_id : Nat) (hdlr : Option Nat)
    (corenum : Nat) : SmdList → Int × SmdList
  | [] => (0, [])
  | entry :: rest =>
    if entMatches sched_msg_id hdlr corenum entry then
      (entry.remaining, foldHeadAdd entry.remaining rest)
    else
      let r := scheduled_msg_cancel3 sched_msg_id hdlr corenum rest
      (r.1, entry :: r.2)

/-- `scheduled_msg_exists2(sched_msg_id, hdlr)`: the calling core is made
an explicit parameter (`get_core_num()` in the source). An entry matches
when its corenum equals the calling core, the id matches, and
`hdlr == NULL || hdlr == msg->hdlr`. -/
def scheduled_msg_exists2 (callerCore : Nat) (sched_msg_id : Nat)
    (hdlr : Option Nat) : SmdList → Bool
  | [] => false
  | entry :: rest =>
    if entry.corenum = callerCore ∧ entry.msg.id = sched_msg_id ∧
        (hdlr = none ∨ hdlr = entry.msg.hdlr) then true
    else scheduled_msg_exists2 callerCore sched_msg_id hdlr rest

/-- `scheduled_msg_exists(sched_msg_id)` delegates to
`scheduled_msg_exists2` with a NULL handler. -/
def scheduled_msg_exists (callerCore : Nat) (sched_msg_id : Nat)
    (l : SmdList) : Bool :=
  scheduled_msg_exists2 callerCore sched_msg_id none l

-- ######################################################################
-- Specification-side views of the delta list
-- ######################################################################

/-- Each entry paired with the running prefix sum of `remaining` deltas
from the list head through that entry (its absolute remaining time in the
delta-queue design). -/
def absList (acc : Int) : SmdList → List (CmtSchMsgData × Int)
  | [] => []
  | e :: rest => (e, acc + e.remaining) :: absList (acc + e.remaining) rest

/-- Specification: the absolute remaining time (prefix-sum of deltas) of
the first entry matching a (id, hdlr, core) triple, if any. -/
def cmt_abs_remaining_of (sched_msg_id : Nat) (hdlr : Option Nat)
    (corenum : Nat) (acc : Int) : SmdList → Option Int
  | [] => none
  | e :: rest =>
    if entMatches sched_msg_id hdlr corenum e then some (acc + e.remaining)
    else cmt_abs_remaining_of sched_msg_id hdlr corenum (acc + e.remaining) rest

/-- All fields of an (entry, absolute remaining) pair except the raw
delta: message, target core, requested delay, ghost schedule time, and
absolute remaining time. -/
structure FireInfo where
  msg : CmtMsg
  corenum : Nat
  ms_requested : Int
  schedAt : Nat
  absRemaining : Int
deriving DecidableEq

/-- View of an `absList` pair as a `FireInfo`. -/
def fireFrame (p : CmtSchMsgData × Int) : FireInfo :=
  { msg := p.1.msg, corenum := p.1.corenum, ms_requested := p.1.ms_requested,
    schedAt := p.1.schedAt, absRemaining := p.2 }

/-- The cancel match test, expressed on a `FireInfo`. -/
def fireMatches (sched_msg_id : Nat) (hdlr : Option Nat) (corenum : Nat)
    (f : FireInfo) : Bool :=
  f.corenum == corenum && f.msg.id == sched_msg_id && f.msg.hdlr == hdlr

/-- Rest-state delta invariant of the queue: the head delta is ≥ 1 and
every later delta is ≥ 0. -/
def deltasOK : SmdList → Prop
  | [] => True
  | e :: rest => 1 ≤ e.remaining ∧ ∀ x ∈ rest, 0 ≤ x.remaining

-- ######################################################################
-- Fixed pools (cmt_heap.c)
-- ######################################################################

/-- Size of `mhllent_pool`: `CMT_MHLLENT_CNT (256*4)`. -/
def CMT_MHLLENT_CNT : Nat := 256 * 4

/-- Size of `smdllent_pool`: `CMT_SCHEDULED_MESSAGES_MAX 32`. -/
def CMT_SCHEDULED_MESSAGES_MAX : Nat := 32

/-- A fixed pool: the free list holds the indices of free slots in pool
order (`next` chaining), and `inUse` holds the per-slot `in_use` flags. -/
structure CmtPool where
  free : List Nat
  inUse : List Bool
deriving DecidableEq

/-- The common body of `cmt_alloc_mhllent` / `cmt_alloc_smdllent`: pop the
head of the free list, mark it in use and hand it out; when the free list
is empty the source calls `board_panic` (a fatal halt that never
returns), modelled as `none`. -/
def pool_alloc (p : CmtPool) : Option (Nat × CmtPool) :=
  match p.free with
  | [] => none
  | ent :: rest => some (ent, { free := rest, inUse := p.inUse.set ent true })

/-- `cmt_alloc_mhllent` (message-handler entry pool). -/
def cmt_alloc_mhllent : CmtPool → Option (Nat × CmtPool) := pool_alloc

/-- `cmt_alloc_smdllent` (scheduled-message entry pool). -/
def cmt_alloc_smdllent : CmtPool → Option (Nat × CmtPool) := pool_alloc

/-- A pool as set up by `cmt_heap_module_init`: slot i's next pointer is
slot i+1, so the free list is 0, 1, ..., size-1, all `in_use` false. -/
def cmt_heap_pool_init (size : Nat) : CmtPool :=
  { free := List.range size, inUse := List.replicate size false }

/-- n consecutive allocations, stopping (fatal halt) as soon as one
fails. -/
def pool_allocN : Nat → CmtPool → Option CmtPool
  | 0, p => some p
  | n + 1, p =>
    match pool_alloc p with
    | none => none
    | some r => pool_allocN n r.2

-- ######################################################################
-- The CMT system state and its transitions
-- ######################################################################

/-- Global CMT state: the scheduled-message list, the housekeeping tick
counter and pending flags (cmt.c statics), the two per-core message
queues (multicore.c), plus the ghost tick count `time` (number of
`_on_recurring_interrupt` ticks so far; specification-only). -/
structure CmtState where
  time : Nat
  smd_ll : SmdList
  housekeep_rt : Nat
  hkcnt : Nat
  housekeep0_msg_pending : Bool
  housekeep1_msg_pending : Bool
  queue0 : List CmtMsg
  queue1 : List CmtMsg
deriving DecidableEq

/-- `post_to_core0` / `post_to_core1` as used by the tick ISR: enqueue a
copy of the message on the target core's queue. (Queue capacity and the
`n`/`t` stamping are not modelled; a full queue is a fatal halt in the
source.) -/
def post_to_core (corenum : Nat) (m : CmtMsg) (s : CmtState) : CmtState :=
  if corenum = 0 then { s with queue0 := s.queue0 ++ [m] }
  else { s with queue1 := s.queue1 ++ [m] }

/-- Post each fired (core, msg) pair in cascade order. -/
def postFiredList (fired : List (Nat × CmtMsg)) (s : CmtState) : CmtState :=
  fired.foldl (fun st cm => post_to_core cm.1 cm.2 st) s

/-- The core-0 half of the housekeeping broadcast:
`if (!_housekeep0_msg_pending) { set flag; post MSG_PERIODIC_RT to core0 }`. -/
def hkPost0 (s : CmtState) : CmtState :=
  if s.housekeep0_msg_pending then s
  else post_to_core 0 hkMsg0 { s with housekeep0_msg_pending := true }

/-- The core-1 half of the housekeeping broadcast. -/
def hkPost1 (s : CmtState) : CmtState :=
  if s.housekeep1_msg_pending then s
  else post_to_core 1 hkMsg1 { s with housekeep1_msg_pending := true }

/-- The housekeeping part of `_on_recurring_interrupt`, run after the
counter update: on wrap (`_housekeep_rt == 0`), post MSG_PERIODIC_RT to
each core whose pending flag is clear, setting that flag. -/
def hkPost (s : CmtState) : CmtState :=
  if s.housekeep_rt = 0 then hkPost1 (hkPost0 s) else s

/-- The scheduled-message half of one `_on_recurring_interrupt` tick:
advance the delta queue, post the fired messages to their cores;
`time` is the ghost tick count. -/
def cmt_tick_body (s : CmtState) : CmtState :=
  postFiredList (smdTick s.smd_ll).1
    { s with smd_ll := (smdTick s.smd_ll).2, time := s.time + 1 }

/-- One `_on_recurring_interrupt` tick: advance the delta queue (fire due
entries, posting them to their cores), then bump the 4-bit counter
(`(_housekeep_rt + 1) & 0x0F`, i.e. mod 16) and run the housekeeping
broadcast. -/
def _on_recurring_interrupt (s : CmtState) : CmtState :=
  hkPost { cmt_tick_body s with
            housekeep_rt := ((cmt_tick_body s).housekeep_rt + 1) % 16 }

/-- The CMT operations the claims quantify over: a timer tick, the
schedule / cancel API calls, one dispatch-loop consumption of the head of
a core's queue, and a direct post. -/
inductive CmtOp where
  | tick
  | schedule (core : Nat) (ms : Int) (msg : CmtMsg)
  | cancel (id : Nat) (hdlr : Option Nat) (core : Nat)
  | consume0
  | consume1
  | post (core : Nat) (msg : CmtMsg)
deriving DecidableEq

/-- Core 0's dispatch loop taking the head message of its queue: if that
message carries the core-0 housekeeping forced handler,
`_housekeep0_msg_hdlr` runs, clearing the pending flag and bumping
`_hkcnt`. Other handler activity is modelled by interleaving further
ops. -/
def consume0Step (s : CmtState) : CmtState :=
  match s.queue0 with
  | [] => s
  | m :: rest =>
    if m.hdlr = some HOUSEKEEP0_HDLR_ID then
      { s with queue0 := rest, housekeep0_msg_pending := false, hkcnt := s.hkcnt + 1 }
    else { s with queue0 := rest }

/-- Core 1's dispatch loop taking the head message of its queue. -/
def consume1Step (s : CmtState) : CmtState :=
  match s.queue1 with
  | [] => s
  | m :: rest =>
    if m.hdlr = some HOUSEKEEP1_HDLR_ID then
      { s with queue1 := rest, housekeep1_msg_pending := false }
    else { s with queue1 := rest }

/-- Step dispatcher over the operation alphabet. -/
def cmtStep (s : CmtState) : CmtOp → CmtState
  | .tick => _on_recurring_interrupt s
  | .schedule c ms m => { s with smd_ll := _schedule_core_msg_in_ms s.time c ms m s.smd_ll }
  | .cancel i h c => { s with smd_ll := (scheduled_msg_cancel3 i h c s.smd_ll).2 }
  | .consume0 => consume0Step s
  | .consume1 => consume1Step s
  | .post c m => post_to_core c m s

/-- Run a sequence of operations. -/
def runOps (s : CmtState) : List CmtOp → CmtState
  | [] => s
  | op :: ops => runOps (cmtStep s op) ops

/-- The state after `cmt_module_init`: empty scheduled list, counters and
flags zeroed (C statics), empty queues. -/
def initState : CmtState :=
  { time := 0, smd_ll := [], housekeep_rt := 0, hkcnt := 0,
    housekeep0_msg_pending := false, housekeep1_msg_pending := false,
    queue0 := [], queue1 := [] }

/-- Delay restriction for the delta-queue invariant: every scheduled
delay is at least 1 ms. -/
def opSchedOK : CmtOp → Prop
  | .schedule _ ms _ => 1 ≤ ms
  | _ => True

/-- Client well-formedness for the housekeeping claim: messages supplied
from outside the ISR never carry the file-static housekeeping handlers
(their addresses are not visible outside cmt.c). -/
def opHdlrOK : CmtOp → Prop
  | .schedule _ _ m => m.hdlr ≠ some HOUSEKEEP0_HDLR_ID ∧ m.hdlr ≠ some HOUSEKEEP1_HDLR_ID
  | .post _ m => m.hdlr ≠ some HOUSEKEEP0_HDLR_ID ∧ m.hdlr ≠ some HOUSEKEEP1_HDLR_ID
  | _ => True

/-- Number of core-n housekeeping messages in a queue: messages whose
forced handler is the given housekeeping handler address. -/
def hkCount (q : List CmtMsg) (h : Nat) : Nat :=
  (q.filter fun m => m.hdlr == some h).length

/-- Entries of the scheduled list never carry a housekeeping forced
handler (the ISR never schedules, it only posts directly). -/
def smdClean (l : SmdList) : Prop :=
  ∀ e ∈ l, e.msg.hdlr ≠ some HOUSEKEEP0_HDLR_ID ∧ e.msg.hdlr ≠ some HOUSEKEEP1_HDLR_ID

-- ######################################################################
-- Cascade-firing helpers (claim C4)
-- ######################################################################

/-- Schedule every message of `msgs`, in order, with the same delay for
the same core (no ticks in between). -/
def scheduleAllSameDelay (t c : Nat) (d : Int) (msgs : List CmtMsg)
    (l : SmdList) : SmdList :=
  msgs.foldl (fun acc m => _schedule_core_msg_in_ms t c d m acc) l

/-- A fresh scheduled entry with an explicit remaining delta. -/
def schEnt (t c : Nat) (d : Int) (m : CmtMsg) (r : Int) : CmtSchMsgData :=
  { remaining := r, corenum := c, ms_requested := d, msg := m, schedAt := t }

/-- The list shape produced by same-delay scheduling: the most recently
scheduled message heads the list carrying the whole delta, all earlier
ones follow with delta 0, in reverse scheduling order. -/
def tieShape (t c : Nat) (d : Int) (msgs : List CmtMsg) : SmdList :=
  match msgs.reverse with
  | [] => []
  | last :: earlier => schEnt t c d last d :: earlier.map (fun x => schEnt t c d x 0)

/-- Run n ticks of the scheduled-message part, collecting all posts. -/
def runTicksFired : Nat → SmdList → List (Nat × CmtMsg) × SmdList
  | 0, l => ([], l)
  | n + 1, l =>
    let r := smdTick l
    let r2 := runTicksFired n r.2
    (r.1 ++ r2.1, r2.2)

-- ######################################################################
-- Invariant predicates
-- ######################################################################

/-- The delta-queue invariant at ghost time `t`: the prefix sum of deltas
through any node equals that node's requested delay minus the ticks
elapsed since it was scheduled. -/
def schedInvAt (t : Nat) (l : SmdList) : Prop :=
  ∀ p ∈ absList 0 l,
    p.2 = p.1.ms_requested - ((t : Int) - (p.1.schedAt : Int)) ∧ p.1.schedAt ≤ t

/-- Housekeeping invariant: each core's queue holds exactly one
housekeeping message when that core's pending flag is set, none
otherwise; and the scheduled list never carries housekeeping handlers. -/
def HkInv (s : CmtState) : Prop :=
  hkCount s.queue0 HOUSEKEEP0_HDLR_ID = (if s.housekeep0_msg_pending then 1 else 0) ∧
  hkCount s.queue1 HOUSEKEEP1_HDLR_ID = (if s.housekeep1_msg_pending then 1 else 0) ∧
  smdClean s.smd_ll

instance (op : CmtOp) : Decidable (opSchedOK op) :=
  match op with
  | .tick => inferInstanceAs (Decidable True)
  | .schedule _ ms _ => inferInstanceAs (Decidable (1 ≤ ms))
  | .cancel _ _ _ => inferInstanceAs (Decidable True)
  | .consume0 => inferInstanceAs (Decidable True)
  | .consume1 => inferInstanceAs (Decidable True)
  | .post _ _ => inferInstanceAs (Decidable True)

instance (op : CmtOp) : Decidable (opHdlrOK op) :=
  match op with
  | .tick => inferInstanceAs (Decidable True)
  | .schedule _ _ m =>
    inferInstanceAs (Decidable (m.hdlr ≠ some HOUSEKEEP0_HDLR_ID ∧ m.hdlr ≠ some HOUSEKEEP1_HDLR_ID))
  | .cancel _ _ _ => inferInstanceAs (Decidable True)
  | .consume0 => inferInstanceAs (Decidable True)
  | .consume1 => inferInstanceAs (Decidable True)
  | .post _ m =>
    inferInstanceAs (Decidable (m.hdlr ≠ some HOUSEKEEP0_HDLR_ID ∧ m.hdlr ≠ some HOUSEKEEP1_HDLR_ID))

-- ######################################################################
-- Concrete example inputs for counterexamples and witnesses
-- ######################################################################

/-- A plain message of kind 0x0A with no forced handler. -/
def exMsgA : CmtMsg := { id := 10, abort := false, hdlr := none, tag := 1 }

/-- A plain message of kind 0x0B with no forced handler. -/
def exMsgB : CmtMsg := { id := 11, abort := false, hdlr := none, tag := 2 }

/-- A plain message of kind 9 with no forced handler. -/
def exMsgK9 : CmtMsg := { id := 9, abort := false, hdlr := none, tag := 0 }

/-- A message of kind 6 (MSG_EXEC) carrying forced handler address 5. -/
def exMsgForced : CmtMsg := { id := 6, abort := false, hdlr := some 5, tag := 0 }

/-- Handler environment in which every handler leaves the message
unchanged. -/
def exEnvId : Nat → CmtMsg → CmtMsg := fun _ m => m

/-- Handler environment in which handler address `a` sets the message's
abort flag and every other handler leaves the message unchanged. -/
def exEnvAbort (a : Nat) : Nat → CmtMsg → CmtMsg :=
  fun h m => if h = a then { m with abort := true } else m

/-- Registry with handler 77 registered for kind 9 with
MSG_HDLR_CORE_BOTH (the failing input of the both-cores claim). -/
def c7Tbl : Nat → List CmtMsgHdlrLLEnt :=
  cmt_msg_hdlr_add_for_core 9 77 MSG_HDLR_CORE_BOTH cmt_msg_hdlrs_empty

/-- Registry with handler 21 (H1) registered for kind 9 core 0, then
handler 22 (H2) registered for the same kind and core. -/
def c2Tbl : Nat → List CmtMsgHdlrLLEnt :=
  cmt_msg_hdlr_add_for_core 9 22 0 (cmt_msg_hdlr_add_for_core 9 21 0 cmt_msg_hdlrs_empty)

/-- Operation sequence refuting the unrestricted delta-queue claim:
schedule kind-10 with delay 5, schedule kind-11 with delay 0, one tick. -/
def c1CexOps : List CmtOp :=
  [.schedule 0 5 exMsgA, .schedule 0 0 exMsgB, .tick]

/-- Operation sequence (all delays ≥ 1) exercising schedule, tick and
cancel for the delta-queue witness. -/
def c1WitnessOps : List CmtOp :=
  [.schedule 0 3 exMsgA, .tick, .schedule 1 2 exMsgB, .tick, .cancel 11 none 1, .tick, .tick]

/-- Scheduled list built by scheduling kind-10 with delay 100 then
kind-11 with delay 150 (same core 0): [A(delta 100), B(delta 50)]. -/
def c6CexList : SmdList :=
  _schedule_core_msg_in_ms 0 0 150 exMsgB (_schedule_core_msg_in_ms 0 0 100 exMsgA [])

/-- Scheduled list built by scheduling kind-10 with delay 100 then
kind-11 with delay 50 (same core 0): [B(delta 50), A(delta 50)]. -/
def c5CexList : SmdList :=
  _schedule_core_msg_in_ms 0 0 50 exMsgB (_schedule_core_msg_in_ms 0 0 100 exMsgA [])

/-- A scheduled entry pending for core 1, kind 5 (for the core-scoping
witness). -/
def exEntOtherCore : CmtSchMsgData :=
  schEnt 0 1 7 { id := 5, abort := false, hdlr := none, tag := 0 } 7

/-- Entry with delta 100 not matching the cancel triple (kind 10). -/
def exEntA : CmtSchMsgData := schEnt 0 0 100 exMsgA 100

/-- Entry with delta 50 matching cancel triple (kind 11, NULL handler,
core 0). -/
def exEntB : CmtSchMsgData := schEnt 0 0 150 exMsgB 50

/-- Operation sequence for the housekeeping witness: two full 16-tick
periods with a consume between them. -/
def c9WitnessOps : List CmtOp :=
  (List.replicate 16 CmtOp.tick) ++ [CmtOp.consume0] ++ (List.replicate 16 CmtOp.tick)

-- ######################################################################
-- Theorems
-- ######################################################################

/-- C2: with handlers H1 then H2 registered for the same kind and core,
dispatch invokes H2 (the most recently added, since
`cmt_msg_hdlr_add_for_core` prepends) first; if H2 sets the message's
abort flag no later handler in the walk runs, so H1 is never invoked;
otherwise H1 runs after H2. -/
theorem c2_dispatch_order_and_abort (env : Nat → CmtMsg → CmtMsg)
    (k h1 h2 c : Nat) (msg : CmtMsg) (hc : c = 0 ∨ c = 1)
    (hh : msg.hdlr = none) (hab : msg.abort = false) (hid : msg.id = k) :
    (message_loop_dispatch env
        (cmt_msg_hdlr_add_for_core k h2 c
          (cmt_msg_hdlr_add_for_core k h1 c cmt_msg_hdlrs_empty)) c msg).1 =
      if (env h2 msg).abort then [h2] else [h2, h1] := by
  have hcc : c &&& 1 = c := by rcases hc with rfl | rfl <;> decide
  have hboth : ¬ (c = MSG_HDLR_CORE_BOTH) := by
    rcases hc with rfl | rfl <;> decide
  simp only [message_loop_dispatch, hh, hab, hid, cmt_msg_hdlr_add_for_core,
    cmt_msg_hdlrs_empty, hcc, if_pos rfl, Bool.false_eq_true, if_false]
  cases habort : (env h2 msg).abort <;>
    simp [walkHandlers, hab, habort, MSG_HDLR_CORE_BOTH]

/-- C2 witness: concrete instantiation with H1 = 21, H2 = 22, kind 9,
core 0, and an environment in which H2 sets abort. -/
theorem c2_dispatch_order_and_abort_witness :
    (((0:Nat) = 0 ∨ (0:Nat) = 1) ∧ exMsgK9.hdlr = none ∧ exMsgK9.abort = false ∧
      exMsgK9.id = 9) ∧
    (message_loop_dispatch (exEnvAbort 22) c2Tbl 0 exMsgK9).1 =
      if ((exEnvAbort 22) 22 exMsgK9).abort then [22] else [22, 21] :=
  ⟨⟨Or.inl rfl, rfl, rfl, rfl⟩,
    c2_dispatch_order_and_abort (exEnvAbort 22) 9 21 22 0 exMsgK9
      (Or.inl rfl) rfl rfl rfl⟩

/-- C3: when a dequeued message carries a forced handler, dispatch
invokes it first, and the registered-handler walk for the message's kind
runs exactly when the abort flag is still false after the forced handler
returns. -/
theorem c3_forced_handler_precedence (env : Nat → CmtMsg → CmtMsg)
    (tbl : Nat → List CmtMsgHdlrLLEnt) (c h : Nat) (msg : CmtMsg)
    (hh : msg.hdlr = some h) :
    (message_loop_dispatch env tbl c msg).1 =
      h :: (if (env h msg).abort then []
            else (walkHandlers env c (tbl (env h msg).id) (env h msg)).1) := by
  simp only [message_loop_dispatch, hh]
  cases habort : (env h msg).abort <;> simp [habort]

/-- C3 witness: a kind-6 message carrying forced handler 5, identity
environment, empty registry. -/
theorem c3_forced_handler_precedence_witness :
    exMsgForced.hdlr = some 5 ∧
    (message_loop_dispatch exEnvId cmt_msg_hdlrs_empty 0 exMsgForced).1 =
      5 :: (if (exEnvId 5 exMsgForced).abort then []
            else (walkHandlers exEnvId 0 (cmt_msg_hdlrs_empty (exEnvId 5 exMsgForced).id)
                    (exEnvId 5 exMsgForced)).1) :=
  ⟨rfl, c3_forced_handler_precedence exEnvId cmt_msg_hdlrs_empty 0 5 exMsgForced rfl⟩

/-- C7 (code bug evidence): registering handler 77 for kind 9 with
MSG_HDLR_CORE_BOTH stores core tag 1 (because `cmt_msg_hdlr_add_for_core`
masks the core with 0x1), so the handler is never invoked by core 0's
dispatch, only by core 1's — contradicting the documented both-cores
behavior and leaving the dispatch loop's MSG_HDLR_CORE_BOTH test dead. -/
theorem c7_bothcores_registration_masked :
    c7Tbl 9 = [{ handler := 77, corenum := 1 }] ∧
    (message_loop_dispatch exEnvId c7Tbl 0 exMsgK9).1 = [] ∧
    (message_loop_dispatch exEnvId c7Tbl 1 exMsgK9).1 = [77] := by
  decide

/-- C10: `scheduled_msg_exists2` inspects only entries of the calling
core (entries pending for the other core never make it true, whatever
their kind and handler); with a NULL handler argument it matches a
pending entry of the kind regardless of the entry's forced-handler field;
and `scheduled_msg_exists` is exactly the NULL-handler query. -/
theorem c10_exists_queries_core_scoped (c i : Nat) :
    (∀ (h : Option Nat) (l : SmdList), (∀ e ∈ l, e.corenum ≠ c) →
      scheduled_msg_exists2 c i h l = false) ∧
    (∀ l : SmdList, scheduled_msg_exists2 c i none l = true ↔
      ∃ e ∈ l, e.corenum = c ∧ e.msg.id = i) ∧
    (∀ l : SmdList, scheduled_msg_exists c i l = scheduled_msg_exists2 c i none l) := by
  refine ⟨?_, ?_, fun l => rfl⟩
  · intro h l hl
    induction l with
    | nil => rfl
    | cons e rest ih =>
      have hne : e.corenum ≠ c := hl e (List.mem_cons_self e rest)
      simp only [scheduled_msg_exists2]
      rw [if_neg (by tauto)]
      exact ih fun x hx => hl x (List.mem_cons_of_mem e hx)
  · intro l
    induction l with
    | nil => simp [scheduled_msg_exists2]
    | cons e rest ih =>
      simp only [scheduled_msg_exists2]
      split
      · rename_i hcond
        exact ⟨fun _ => ⟨e, List.mem_cons_self e rest, hcond.1, hcond.2.1⟩, fun _ => rfl⟩
      · rename_i hcond
        rw [ih]
        constructor
        · rintro ⟨x, hx, hp⟩; exact ⟨x, List.mem_cons_of_mem e hx, hp⟩
        · rintro ⟨x, hx, hp⟩
          rcases List.mem_cons.mp hx with rfl | hx'
          · exact absurd ⟨hp.1, hp.2, Or.inl trivial⟩ hcond
          · exact ⟨x, hx', hp⟩

/-- C10 witness: an entry pending for core 1 with matching kind 5 is
invisible to a core-0 query. -/
theorem c10_exists_queries_core_scoped_witness :
    (∀ e ∈ [exEntOtherCore], e.corenum ≠ 0) ∧
    scheduled_msg_exists2 0 5 none [exEntOtherCore] = false :=
  ⟨by decide, (c10_exists_queries_core_scoped 0 5).1 none [exEntOtherCore] (by decide)⟩

/-- C6 counterexample: after scheduling kind-10 with delay 100 and then
kind-11 with delay 150, cancelling the kind-11 message returns its stored
delta 50, not its absolute remaining time 150 ms as the claim states. -/
theorem c6_cancel_returns_delta_cex :
    (scheduled_msg_cancel3 11 none 0 c6CexList).1 = 50 ∧
    cmt_abs_remaining_of 11 none 0 0 c6CexList = some 150 ∧
    (scheduled_msg_cancel3 11 none 0 c6CexList).1 ≠ 150 := by
  decide

/-- C6 (amended): `scheduled_msg_cancel3` removes the first entry
matching the (core, kind, forced-handler) triple, folds that entry's
`remaining` delta into its successor, and returns the `remaining` delta
field (the time relative to its predecessor, not the absolute remaining
time); when nothing matches it returns 0 and the list is unchanged. -/
theorem c6_cancel_return_contract (i : Nat) (h : Option Nat) (c : Nat) :
    (∀ l : SmdList, (∀ e ∈ l, entMatches i h c e = false) →
      scheduled_msg_cancel3 i h c l = (0, l)) ∧
    (∀ (l1 : SmdList) (e : CmtSchMsgData) (l2 : SmdList),
      (∀ x ∈ l1, entMatches i h c x = false) → entMatches i h c e = true →
      scheduled_msg_cancel3 i h c (l1 ++ e :: l2) =
        (e.remaining, l1 ++ foldHeadAdd e.remaining l2)) := by
  constructor
  · intro l hl
    induction l with
    | nil => rfl
    | cons x rest ih =>
      have hx : entMatches i h c x = false := hl x (List.mem_cons_self x rest)
      simp only [scheduled_msg_cancel3, hx, Bool.false_eq_true, if_false,
        ih fun y hy => hl y (List.mem_cons_of_mem x hy)]
  · intro l1 e l2 hl1 he
    induction l1 with
    | nil => simp [scheduled_msg_cancel3, he]
    | cons x rest ih =>
      have hx : entMatches i h c x = false := hl1 x (List.mem_cons_self x rest)
      have hrec := ih fun y hy => hl1 y (List.mem_cons_of_mem x hy)
      simp only [List.cons_append, scheduled_msg_cancel3, hx, Bool.false_eq_true,
        if_false, List.append_eq, hrec]

/-- C6 witness: cancelling kind 11 in [non-matching entry, matching
entry] returns the matching entry's delta and removes it. -/
theorem c6_cancel_return_contract_witness :
    ((∀ x ∈ [exEntA], entMatches 11 none 0 x = false) ∧
      entMatches 11 none 0 exEntB = true) ∧
    scheduled_msg_cancel3 11 none 0 ([exEntA] ++ exEntB :: []) =
      (exEntB.remaining, [exEntA] ++ foldHeadAdd exEntB.remaining []) :=
  ⟨⟨by decide, by decide⟩,
    (c6_cancel_return_contract 11 none 0).2 [exEntA] exEntB [] (by decide) (by decide)⟩

/-- C8: pool allocation pops the free-list head and marks it in use
whenever the free list is non-empty (other slots' flags untouched), and
hits the fatal-halt path (`board_panic`) exactly when the free list is
empty; starting from `cmt_heap_module_init`, the k-th consecutive
allocation succeeds iff k ≤ 1024 for the handler pool and iff k ≤ 32 for
the scheduled-message pool. -/
theorem c8_pool_alloc_exhaustion :
    (∀ p : CmtPool, pool_alloc p = none ↔ p.free = []) ∧
    (∀ (p : CmtPool) (ifree : Nat) (rest : List Nat), p.free = ifree :: rest →
      cmt_alloc_mhllent p = some (ifree, { free := rest, inUse := p.inUse.set ifree true }) ∧
      cmt_alloc_smdllent p = some (ifree, { free := rest, inUse := p.inUse.set ifree true }) ∧
      ∀ j, j ≠ ifree → (p.inUse.set ifree true)[j]? = p.inUse[j]?) ∧
    (∀ k : Nat,
      (pool_allocN k (cmt_heap_pool_init CMT_MHLLENT_CNT)).isSome ↔ k ≤ 1024) ∧
    (∀ k : Nat,
      (pool_allocN k (cmt_heap_pool_init CMT_SCHEDULED_MESSAGES_MAX)).isSome ↔ k ≤ 32) := by
  have hlen : ∀ (k : Nat) (p : CmtPool), (pool_allocN k p).isSome ↔ k ≤ p.free.length := by
    intro k
    induction k with
    | zero => intro p; simp [pool_allocN]
    | succ n ih =>
      intro p
      rcases hfree : p.free with _ | ⟨ifree, rest⟩
      · have hnone : pool_alloc p = none := by simp [pool_alloc, hfree]
        simp only [pool_allocN, hnone]
        simp [hfree]
      · have hsome : pool_alloc p =
            some (ifree, { free := rest, inUse := p.inUse.set ifree true }) := by
          simp [pool_alloc, hfree]
        simp only [pool_allocN, hsome]
        rw [ih]
        simp only [hfree, List.length_cons]
        omega
  have hinitlen : ∀ n : Nat, (cmt_heap_pool_init n).free.length = n :=
    fun n => List.length_range n
  refine ⟨?_, ?_, ?_, ?_⟩
  · intro p
    cases hfree : p.free <;> simp [pool_alloc, hfree]
  · intro p ifree rest hfree
    refine ⟨?_, ?_, fun j hj => List.getElem?_set_ne (Ne.symm hj)⟩ <;>
      simp [cmt_alloc_mhllent, cmt_alloc_smdllent, pool_alloc, hfree]
  · intro k
    rw [hlen k, hinitlen]
    have h1024 : CMT_MHLLENT_CNT = 1024 := rfl
    rw [h1024]
  · intro k
    rw [hlen k, hinitlen]
    exact Iff.rfl

/-- C8 witness: on a two-slot pool the allocation pops slot 0 and marks
it; a 33rd allocation from the 32-entry scheduled-message pool halts. -/
theorem c8_pool_alloc_exhaustion_witness :
    ((cmt_heap_pool_init 2).free = 0 :: [1]) ∧
    cmt_alloc_mhllent (cmt_heap_pool_init 2) =
      some (0, { free := [1], inUse := (cmt_heap_pool_init 2).inUse.set 0 true }) ∧
    ((pool_allocN 32 (cmt_heap_pool_init CMT_SCHEDULED_MESSAGES_MAX)).isSome ↔ 32 ≤ 32) :=
  ⟨by decide,
    ((c8_pool_alloc_exhaustion.2.1 (cmt_heap_pool_init 2) 0 [1] (by decide)).1),
    (c8_pool_alloc_exhaustion.2.2.2 32)⟩

/-- C1 counterexample: the claim quantifies over all schedule calls, but
after scheduling kind-10 with delay 5, kind-11 with delay 0 and one tick,
the surviving node's prefix sum is 5 while its requested delay minus the
elapsed ticks is 4 (the zero-delay head absorbed the tick's decrement and
was discarded without folding it). -/
theorem c1_delta_queue_invariant_cex :
    ¬ ∀ p ∈ absList 0 (runOps initState c1CexOps).smd_ll,
        p.2 = p.1.ms_requested -
          (((runOps initState c1CexOps).time : Int) - (p.1.schedAt : Int)) := by
  decide

/-- C4 counterexample: scheduling kind-10 then kind-11 with the same
2 ms delay and advancing two ticks fires both in the same tick but posts
the later-scheduled kind-11 message first — reverse insertion order, not
the original insertion order the claim states. -/
theorem c4_tie_order_cex :
    (runTicksFired 2 (scheduleAllSameDelay 0 0 2 [exMsgA, exMsgB] [])).1 =
      [(0, exMsgB), (0, exMsgA)] ∧
    (runTicksFired 2 (scheduleAllSameDelay 0 0 2 [exMsgA, exMsgB] [])).1 ≠
      [(0, exMsgA), (0, exMsgB)] := by
  decide

theorem fireDue_all (l : SmdList) (h : ∀ x ∈ l, x.remaining ≤ 0) :
    fireDue l = (l.map fun x => (x.corenum, x.msg), []) := by
  induction l with
  | nil => rfl
  | cons e rest ih =>
    have he : e.remaining ≤ 0 := h e (List.mem_cons_self e rest)
    simp only [fireDue, if_pos he, ih fun x hx => h x (List.mem_cons_of_mem e hx),
      List.map_cons]

theorem runTicksFired_add (a b : Nat) (l : SmdList) :
    runTicksFired (a + b) l =
      ((runTicksFired a l).1 ++ (runTicksFired b (runTicksFired a l).2).1,
        (runTicksFired b (runTicksFired a l).2).2) := by
  induction a generalizing l with
  | zero => simp [runTicksFired]
  | succ n ih =>
    rw [Nat.succ_add]
    simp only [runTicksFired, ih]
    simp [List.append_assoc]

theorem runTicks_no_fire (k : Nat) (e : CmtSchMsgData) (zs : SmdList)
    (hk : (k : Int) < e.remaining) :
    runTicksFired k (e :: zs) = ([], { e with remaining := e.remaining - (k : Int) } :: zs) := by
  induction k generalizing e with
  | zero =>
    have h0 : e.remaining - ((0 : Nat) : Int) = e.remaining := by norm_num
    rw [h0]
    rfl
  | succ n ih =>
    have hgt : ¬ (({ e with remaining := e.remaining - 1 } : CmtSchMsgData).remaining ≤ 0) := by
      push_cast at hk
      simp only []
      omega
    simp only [runTicksFired, smdTick, if_neg hgt]
    have hn : (n : Int) < ({ e with remaining := e.remaining - 1 } : CmtSchMsgData).remaining := by
      push_cast at hk
      simp only []
      omega
    rw [ih _ hn]
    have harith : e.remaining - 1 - (n : Int) = e.remaining - ((n + 1 : Nat) : Int) := by
      push_cast
      ring
    simp [harith]

theorem smdTick_fire_all (e : CmtSchMsgData) (zs : SmdList)
    (he : e.remaining = 1) (hzs : ∀ x ∈ zs, x.remaining = 0) :
    smdTick (e :: zs) = ((e.corenum, e.msg) :: zs.map fun x => (x.corenum, x.msg), []) := by
  have hle : ({ e with remaining := e.remaining - 1 } : CmtSchMsgData).remaining ≤ 0 := by
    simp [he]
  simp only [smdTick, if_pos hle]
  rw [fireDue_all]
  · simp
  · intro x hx
    rcases List.mem_cons.mp hx with rfl | hx'
    · simpa using hle
    · simp [hzs x hx']

theorem scheduleAll_tieShape (t c : Nat) (d : Int) (msgs : List CmtMsg) :
    scheduleAllSameDelay t c d msgs [] = tieShape t c d msgs := by
  induction msgs using List.reverseRecOn with
  | nil => rfl
  | append_singleton ms m ih =>
    have hfold : scheduleAllSameDelay t c d (ms ++ [m]) [] =
        _schedule_core_msg_in_ms t c d m (scheduleAllSameDelay t c d ms []) := by
      simp [scheduleAllSameDelay, List.foldl_append]
    rw [hfold, ih]
    rcases hrev : ms.reverse with _ | ⟨last, earlier⟩
    · have hnil : ms = [] := by
        have := congrArg List.reverse hrev
        simpa using this
      subst hnil
      rfl
    · have hrev2 : (ms ++ [m]).reverse = m :: last :: earlier := by
        rw [List.reverse_append]
        simp [hrev]
      simp only [tieShape, hrev, hrev2]
      simp only [_schedule_core_msg_in_ms, smdInsert, schEnt, if_pos (le_refl d)]
      simp [sub_self]

theorem runTicksFired_head_countdown (n : Nat) (e : CmtSchMsgData) (zs : SmdList)
    (he : e.remaining = (n : Int) + 1) (hzs : ∀ x ∈ zs, x.remaining = 0) :
    runTicksFired (n + 1) (e :: zs) =
      ((e.corenum, e.msg) :: zs.map (fun x => (x.corenum, x.msg)), []) := by
  induction n generalizing e with
  | zero =>
    have he1 : e.remaining = 1 := by rw [he]; norm_num
    simp only [runTicksFired, smdTick_fire_all e zs he1 hzs, List.append_nil]
  | succ m ih =>
    have hgt : ¬ (({ e with remaining := e.remaining - 1 } : CmtSchMsgData).remaining ≤ 0) := by
      show ¬ (e.remaining - 1 ≤ 0)
      rw [he]
      push_cast
      omega
    have hrec := ih { e with remaining := e.remaining - 1 }
      (by show e.remaining - 1 = (m : Int) + 1; rw [he]; push_cast; ring)
    simp only [runTicksFired, smdTick, if_neg hgt] at hrec ⊢
    simpa using hrec

/-- C4 (amended): scheduling N ≥ 1 messages with the same positive delay
for the same core and advancing the tick interrupt by that delay fires
all N in that same tick (no earlier tick fires anything), but the posts
happen in reverse insertion order — the most recently scheduled message
first — because the insertion walk's `new.remaining <= entry.remaining`
test places an equal-delay newcomer in front of the existing ties. -/
theorem c4_cascade_same_tick_reverse_order (t c : Nat) (d : Nat) (hd : 1 ≤ d)
    (msgs : List CmtMsg) (hne : msgs ≠ []) :
    (∀ k, k < d → (runTicksFired k (scheduleAllSameDelay t c (d : Int) msgs [])).1 = []) ∧
    runTicksFired d (scheduleAllSameDelay t c (d : Int) msgs []) =
      (msgs.reverse.map fun m => (c, m), []) := by
  rw [scheduleAll_tieShape]
  rcases hrev : msgs.reverse with _ | ⟨last, earlier⟩
  · exact absurd (by simpa using congrArg List.reverse hrev) hne
  · have hzs : ∀ x ∈ earlier.map (fun x => schEnt t c ((d : Nat) : Int) x 0),
        x.remaining = 0 := by
      intro x hx
      rcases List.mem_map.mp hx with ⟨y, hy, rfl⟩
      rfl
    constructor
    · intro k hk
      have hklt : (k : Int) < (schEnt t c ((d : Nat) : Int) last ((d : Nat) : Int)).remaining := by
        show (k : Int) < ((d : Nat) : Int)
        exact_mod_cast hk
      simp only [tieShape, hrev]
      rw [runTicks_no_fire k _ _ hklt]
    · obtain ⟨d1, rfl⟩ : ∃ d1, d = d1 + 1 := ⟨d - 1, by omega⟩
      simp only [tieShape, hrev]
      have hhead : (schEnt t c ((d1 + 1 : Nat) : Int) last ((d1 + 1 : Nat) : Int)).remaining =
          (d1 : Int) + 1 := by
        show ((d1 + 1 : Nat) : Int) = (d1 : Int) + 1
        push_cast
        ring
      rw [runTicksFired_head_countdown d1 _ _ hhead hzs]
      simp [schEnt, List.map_map, Function.comp]

/-- C4 witness: two messages, delay 2 — nothing fires in tick 1, both
fire in tick 2, most recently scheduled first. -/
theorem c4_cascade_same_tick_reverse_order_witness :
    ((1 : Nat) ≤ 2 ∧ [exMsgA, exMsgB] ≠ ([] : List CmtMsg)) ∧
    runTicksFired 2 (scheduleAllSameDelay 0 0 ((2 : Nat) : Int) [exMsgA, exMsgB] []) =
      ([exMsgA, exMsgB].reverse.map fun m => (0, m), []) :=
  ⟨⟨by decide, by decide⟩,
    (c4_cascade_same_tick_reverse_order 0 0 2 (by decide) [exMsgA, exMsgB] (by decide)).2⟩

theorem cancel_absList_eraseP (i : Nat) (h : Option Nat) (c : Nat) (l : SmdList) :
    ∀ acc : Int,
      (absList acc (scheduled_msg_cancel3 i h c l).2).map fireFrame =
        ((absList acc l).map fireFrame).eraseP (fireMatches i h c) := by
  induction l with
  | nil => intro acc; rfl
  | cons e rest ih =>
    intro acc
    by_cases hm : entMatches i h c e = true
    · have hmF : fireMatches i h c (fireFrame (e, acc + e.remaining)) = true := hm
      simp only [scheduled_msg_cancel3, hm, if_true, absList, List.map_cons]
      rw [List.eraseP_cons_of_pos hmF]
      cases rest with
      | nil => rfl
      | cons nxt more =>
        show (fireFrame ({ nxt with remaining := nxt.remaining + e.remaining },
                acc + (nxt.remaining + e.remaining)) ::
              (absList (acc + (nxt.remaining + e.remaining)) more).map fireFrame) =
            (fireFrame (nxt, acc + e.remaining + nxt.remaining) ::
              (absList (acc + e.remaining + nxt.remaining) more).map fireFrame)
        have hacc : acc + (nxt.remaining + e.remaining) = acc + e.remaining + nxt.remaining := by
          ring
        rw [hacc]
        rfl
    · have hm1 : entMatches i h c e = false := by
        revert hm
        cases entMatches i h c e <;> simp
      have hmF : ¬ (fireMatches i h c (fireFrame (e, acc + e.remaining)) = true) := by
        have : fireMatches i h c (fireFrame (e, acc + e.remaining)) = false := hm1
        simp [this]
      simp only [scheduled_msg_cancel3, hm1, Bool.false_eq_true, if_false, absList,
        List.map_cons]
      rw [List.eraseP_cons_of_neg hmF, ih (acc + e.remaining)]

/-- C5: cancelling a pending scheduled message removes exactly the first
entry matching the (core, kind, forced-handler) triple from the
absolute-time view of the queue and leaves every other entry's message,
core, requested delay, schedule time, and absolute remaining time (prefix
sum of deltas) unchanged, because the removed delta is folded into the
successor; in particular scheduling kind-10 with delay 100 then kind-11
with delay 50 and cancelling the kind-11 message leaves the kind-10
entry with its full 100 ticks. -/
theorem c5_cancel_preserves_other_fire_times :
    (∀ (i : Nat) (h : Option Nat) (c : Nat) (l : SmdList) (acc : Int),
      (absList acc (scheduled_msg_cancel3 i h c l).2).map fireFrame =
        ((absList acc l).map fireFrame).eraseP (fireMatches i h c)) ∧
    (scheduled_msg_cancel3 11 none 0 c5CexList).2 = [schEnt 0 0 100 exMsgA 100] ∧
    absList 0 c5CexList =
      [(schEnt 0 0 50 exMsgB 50, 50), (schEnt 0 0 100 exMsgA 50, 100)] :=
  ⟨fun i h c l acc => cancel_absList_eraseP i h c l acc, by decide, by decide⟩

theorem post_to_core_proj (c : Nat) (m : CmtMsg) (s : CmtState) :
    (post_to_core c m s).smd_ll = s.smd_ll ∧
    (post_to_core c m s).time = s.time ∧
    (post_to_core c m s).housekeep_rt = s.housekeep_rt ∧
    (post_to_core c m s).housekeep0_msg_pending = s.housekeep0_msg_pending ∧
    (post_to_core c m s).housekeep1_msg_pending = s.housekeep1_msg_pending := by
  unfold post_to_core
  split <;> exact ⟨rfl, rfl, rfl, rfl, rfl⟩

theorem postFiredList_proj (fired : List (Nat × CmtMsg)) :
    ∀ s : CmtState,
      (postFiredList fired s).smd_ll = s.smd_ll ∧
      (postFiredList fired s).time = s.time ∧
      (postFiredList fired s).housekeep_rt = s.housekeep_rt ∧
      (postFiredList fired s).housekeep0_msg_pending = s.housekeep0_msg_pending ∧
      (postFiredList fired s).housekeep1_msg_pending = s.housekeep1_msg_pending := by
  induction fired with
  | nil => intro s; exact ⟨rfl, rfl, rfl, rfl, rfl⟩
  | cons f rest ih =>
    intro s
    have h1 := post_to_core_proj f.1 f.2 s
    have h2 := ih (post_to_core f.1 f.2 s)
    simp only [postFiredList, List.foldl_cons] at h2 ⊢
    exact ⟨h2.1.trans h1.1, h2.2.1.trans h1.2.1, h2.2.2.1.trans h1.2.2.1,
      h2.2.2.2.1.trans h1.2.2.2.1, h2.2.2.2.2.trans h1.2.2.2.2⟩

theorem hkPost0_proj (s : CmtState) :
    (hkPost0 s).smd_ll = s.smd_ll ∧ (hkPost0 s).time = s.time ∧
    (hkPost0 s).housekeep_rt = s.housekeep_rt ∧
    (hkPost0 s).housekeep1_msg_pending = s.housekeep1_msg_pending ∧
    (hkPost0 s).queue1 = s.queue1 := by
  unfold hkPost0
  split
  · exact ⟨rfl, rfl, rfl, rfl, rfl⟩
  · exact ⟨rfl, rfl, rfl, rfl, rfl⟩

theorem hkPost1_proj (s : CmtState) :
    (hkPost1 s).smd_ll = s.smd_ll ∧ (hkPost1 s).time = s.time ∧
    (hkPost1 s).housekeep_rt = s.housekeep_rt ∧
    (hkPost1 s).housekeep0_msg_pending = s.housekeep0_msg_pending ∧
    (hkPost1 s).queue0 = s.queue0 := by
  unfold hkPost1
  split
  · exact ⟨rfl, rfl, rfl, rfl, rfl⟩
  · exact ⟨rfl, rfl, rfl, rfl, rfl⟩

theorem hkPost_proj (s : CmtState) :
    (hkPost s).smd_ll = s.smd_ll ∧ (hkPost s).time = s.time := by
  unfold hkPost
  split
  · exact ⟨(hkPost1_proj _).1.trans (hkPost0_proj _).1,
      (hkPost1_proj _).2.1.trans (hkPost0_proj _).2.1⟩
  · exact ⟨rfl, rfl⟩

theorem cmt_tick_body_proj (s : CmtState) :
    (cmt_tick_body s).smd_ll = (smdTick s.smd_ll).2 ∧
    (cmt_tick_body s).time = s.time + 1 ∧
    (cmt_tick_body s).housekeep0_msg_pending = s.housekeep0_msg_pending ∧
    (cmt_tick_body s).housekeep1_msg_pending = s.housekeep1_msg_pending := by
  have hpf := postFiredList_proj (smdTick s.smd_ll).1
    { s with smd_ll := (smdTick s.smd_ll).2, time := s.time + 1 }
  exact ⟨hpf.1, hpf.2.1, hpf.2.2.2.1, hpf.2.2.2.2⟩

theorem on_recurring_interrupt_proj (s : CmtState) :
    (_on_recurring_interrupt s).smd_ll = (smdTick s.smd_ll).2 ∧
    (_on_recurring_interrupt s).time = s.time + 1 := by
  unfold _on_recurring_interrupt
  have hhk := hkPost_proj
    { cmt_tick_body s with
        housekeep_rt := ((cmt_tick_body s).housekeep_rt + 1) % 16 }
  exact ⟨hhk.1.trans (cmt_tick_body_proj s).1,
    hhk.2.trans (cmt_tick_body_proj s).2.1⟩

theorem absList_shift (l : SmdList) :
    ∀ acc : Int, absList acc l = (absList 0 l).map fun p => (p.1, p.2 + acc) := by
  induction l with
  | nil => intro acc; rfl
  | cons e rest ih =>
    intro acc
    simp only [absList, List.map_cons]
    congr 1
    · simp only [Prod.mk.injEq]
      exact ⟨trivial, by ring⟩
    · rw [ih (acc + e.remaining), ih (0 + e.remaining), List.map_map]
      apply List.map_congr_left
      intro p hp
      simp only [Function.comp_apply, Prod.mk.injEq]
      exact ⟨trivial, by ring⟩


theorem smdInsert_all_nonneg (n : CmtSchMsgData) (l : SmdList)
    (hl : ∀ x ∈ l, 0 ≤ x.remaining) (hn : 1 ≤ n.remaining) :
    ∀ x ∈ smdInsert n l, 0 ≤ x.remaining := by
  induction l generalizing n with
  | nil =>
    intro x hx
    rcases List.mem_singleton.mp hx with rfl
    omega
  | cons e rest ih =>
    intro x hx
    by_cases hle : n.remaining ≤ e.remaining
    · simp only [smdInsert, if_pos hle] at hx
      rcases List.mem_cons.mp hx with rfl | hx1
      · omega
      · rcases List.mem_cons.mp hx1 with rfl | hx2
        · show (0 : Int) ≤ e.remaining - n.remaining
          omega
        · exact hl x (List.mem_cons_of_mem e hx2)
    · simp only [smdInsert, if_neg hle] at hx
      rcases List.mem_cons.mp hx with rfl | hx1
      · exact hl x (List.mem_cons_self x rest)
      · have hn1 : 1 ≤ ({ n with remaining := n.remaining - e.remaining } : CmtSchMsgData).remaining := by
          show (1 : Int) ≤ n.remaining - e.remaining
          omega
        exact ih { n with remaining := n.remaining - e.remaining }
          (fun y hy => hl y (List.mem_cons_of_mem e hy)) hn1 x hx1

theorem smdInsert_deltasOK (n : CmtSchMsgData) (l : SmdList)
    (hl : deltasOK l) (hn : 1 ≤ n.remaining) : deltasOK (smdInsert n l) := by
  cases l with
  | nil => exact ⟨hn, by intro x hx; cases hx⟩
  | cons e rest =>
    obtain ⟨hhead, hrest⟩ := hl
    by_cases hle : n.remaining ≤ e.remaining
    · simp only [smdInsert, if_pos hle]
      refine ⟨hn, ?_⟩
      intro x hx
      rcases List.mem_cons.mp hx with rfl | hx1
      · show (0 : Int) ≤ e.remaining - n.remaining
        omega
      · exact hrest x hx1
    · simp only [smdInsert, if_neg hle]
      refine ⟨hhead, ?_⟩
      have hn1 : 1 ≤ ({ n with remaining := n.remaining - e.remaining } : CmtSchMsgData).remaining := by
        show (1 : Int) ≤ n.remaining - e.remaining
        omega
      exact smdInsert_all_nonneg _ rest hrest hn1

theorem smdInsert_absList_mem (n : CmtSchMsgData) (l : SmdList) :
    ∀ (acc : Int) (p : CmtSchMsgData × Int), p ∈ absList acc (smdInsert n l) →
      fireFrame p = fireFrame (n, acc + n.remaining) ∨
      ∃ q ∈ absList acc l, fireFrame q = fireFrame p := by
  induction l generalizing n with
  | nil =>
    intro acc p hp
    simp only [smdInsert, absList] at hp
    rcases List.mem_singleton.mp hp with rfl
    exact Or.inl rfl
  | cons e rest ih =>
    intro acc p hp
    by_cases hle : n.remaining ≤ e.remaining
    · simp only [smdInsert, if_pos hle, absList] at hp
      rcases List.mem_cons.mp hp with rfl | hp1
      · exact Or.inl rfl
      · rcases List.mem_cons.mp hp1 with rfl | hp2
        · refine Or.inr ⟨(e, acc + e.remaining), List.mem_cons_self _ _, ?_⟩
          show fireFrame (e, acc + e.remaining) =
            fireFrame ({ e with remaining := e.remaining - n.remaining },
              acc + n.remaining + (e.remaining - n.remaining))
          have : acc + e.remaining = acc + n.remaining + (e.remaining - n.remaining) := by ring
          rw [← this]
          rfl
        · -- deeper entries: accumulators coincide
          have : acc + n.remaining + (e.remaining - n.remaining) = acc + e.remaining := by ring
          rw [this] at hp2
          exact Or.inr ⟨p, List.mem_cons_of_mem _ hp2, rfl⟩
    · simp only [smdInsert, if_neg hle, absList] at hp
      rcases List.mem_cons.mp hp with rfl | hp1
      · exact Or.inr ⟨(e, acc + e.remaining), List.mem_cons_self _ _, rfl⟩
      · rcases ih { n with remaining := n.remaining - e.remaining } (acc + e.remaining) p hp1 with
          hL | ⟨q, hq, hqf⟩
        · left
          rw [hL]
          show fireFrame ({ n with remaining := n.remaining - e.remaining },
              acc + e.remaining + (n.remaining - e.remaining)) = fireFrame (n, acc + n.remaining)
          have : acc + e.remaining + (n.remaining - e.remaining) = acc + n.remaining := by ring
          rw [this]
          rfl
        · exact Or.inr ⟨q, List.mem_cons_of_mem _ hq, hqf⟩

theorem fireDue_rest_mem (l : SmdList) : ∀ x ∈ (fireDue l).2, x ∈ l := by
  induction l with
  | nil => intro x hx; cases hx
  | cons e rest ih =>
    intro x hx
    by_cases hle : e.remaining ≤ 0
    · simp only [fireDue, if_pos hle] at hx
      exact List.mem_cons_of_mem e (ih x hx)
    · simp only [fireDue, if_neg hle] at hx
      exact hx

theorem fireDue_rest_deltasOK (l : SmdList) (hl : ∀ x ∈ l, 0 ≤ x.remaining) :
    deltasOK (fireDue l).2 := by
  induction l with
  | nil => trivial
  | cons e rest ih =>
    by_cases hle : e.remaining ≤ 0
    · simp only [fireDue, if_pos hle]
      exact ih fun x hx => hl x (List.mem_cons_of_mem e hx)
    · simp only [fireDue, if_neg hle]
      exact ⟨by omega, fun x hx => hl x (List.mem_cons_of_mem e hx)⟩

theorem fireDue_rest_absList (l : SmdList) (hl : ∀ x ∈ l, 0 ≤ x.remaining) :
    ∀ p ∈ absList 0 (fireDue l).2, p ∈ absList 0 l := by
  induction l with
  | nil => intro p hp; cases hp
  | cons e rest ih
  => by_cases hle : e.remaining ≤ 0
     · intro p hp
       have hz : e.remaining = 0 :=
         le_antisymm hle (hl e (List.mem_cons_self e rest))
       simp only [fireDue, if_pos hle] at hp
       have hp1 := ih (fun x hx => hl x (List.mem_cons_of_mem e hx)) p hp
       simp only [absList, hz, add_zero]
       exact List.mem_cons_of_mem _ (by simpa using hp1)
     · intro p hp
       simp only [fireDue, if_neg hle] at hp
       exact hp

theorem smdTick_deltasOK (l : SmdList) (hl : deltasOK l) :
    deltasOK (smdTick l).2 := by
  cases l with
  | nil => trivial
  | cons e rest =>
    obtain ⟨hhead, hrest⟩ := hl
    by_cases hle : ({ e with remaining := e.remaining - 1 } : CmtSchMsgData).remaining ≤ 0
    · simp only [smdTick, if_pos hle]
      apply fireDue_rest_deltasOK
      intro x hx
      rcases List.mem_cons.mp hx with rfl | hx1
      · show (0 : Int) ≤ e.remaining - 1
        omega
      · exact hrest x hx1
    · simp only [smdTick, if_neg hle]
      refine ⟨?_, hrest⟩
      show (1 : Int) ≤ e.remaining - 1
      have : ¬ (e.remaining - 1 ≤ 0) := hle
      omega

theorem smdTick_absList_shift (l : SmdList) (hl : deltasOK l) :
    ∀ p ∈ absList 0 (smdTick l).2, ∃ q ∈ absList 0 l,
      fireFrame q = fireFrame (p.1, p.2 + 1) := by
  cases l with
  | nil => intro p hp; cases hp
  | cons e rest =>
    obtain ⟨hhead, hrest⟩ := hl
    have hdec : ∀ p ∈ absList 0 ({ e with remaining := e.remaining - 1 } :: rest),
        ∃ q ∈ absList 0 (e :: rest), fireFrame q = fireFrame (p.1, p.2 + 1) := by
      intro p hp
      simp only [absList] at hp
      rcases List.mem_cons.mp hp with rfl | hp1
      · refine ⟨(e, 0 + e.remaining), List.mem_cons_self _ _, ?_⟩
        show fireFrame (e, 0 + e.remaining) =
          fireFrame ({ e with remaining := e.remaining - 1 }, 0 + (e.remaining - 1) + 1)
        have : (0 : Int) + e.remaining = 0 + (e.remaining - 1) + 1 := by ring
        rw [← this]
        rfl
      · -- p comes from the tail at accumulator (e.remaining - 1)
        rw [absList_shift] at hp1
        rcases List.mem_map.mp hp1 with ⟨p0, hp0, rfl⟩
        refine ⟨(p0.1, p0.2 + (0 + e.remaining)), ?_, ?_⟩
        · simp only [absList]
          refine List.mem_cons_of_mem _ ?_
          rw [absList_shift]
          exact List.mem_map.mpr ⟨p0, hp0, rfl⟩
        · show fireFrame (p0.1, p0.2 + (0 + e.remaining)) =
            fireFrame (p0.1, p0.2 + (0 + (e.remaining - 1)) + 1)
          have : p0.2 + (0 + e.remaining) = p0.2 + (0 + (e.remaining - 1)) + 1 := by ring
          rw [this]
    by_cases hle : ({ e with remaining := e.remaining - 1 } : CmtSchMsgData).remaining ≤ 0
    · intro p hp
      simp only [smdTick, if_pos hle] at hp
      have hnn : ∀ x ∈ ({ e with remaining := e.remaining - 1 } :: rest), 0 ≤ x.remaining := by
        intro x hx
        rcases List.mem_cons.mp hx with rfl | hx1
        · show (0 : Int) ≤ e.remaining - 1
          omega
        · exact hrest x hx1
      exact hdec p (fireDue_rest_absList _ hnn p hp)
    · intro p hp
      simp only [smdTick, if_neg hle] at hp
      exact hdec p hp

theorem cancel_all_nonneg (i : Nat) (h : Option Nat) (c : Nat) (l : SmdList)
    (hl : ∀ x ∈ l, 0 ≤ x.remaining) :
    ∀ x ∈ (scheduled_msg_cancel3 i h c l).2, 0 ≤ x.remaining := by
  induction l with
  | nil => intro x hx; cases hx
  | cons e rest ih =>
    intro x hx
    by_cases hm : entMatches i h c e = true
    · simp only [scheduled_msg_cancel3, hm, if_true] at hx
      cases rest with
      | nil => cases hx
      | cons nxt more =>
        simp only [foldHeadAdd] at hx
        rcases List.mem_cons.mp hx with rfl | hx1
        · show (0 : Int) ≤ nxt.remaining + e.remaining
          have h1 : 0 ≤ nxt.remaining :=
            hl nxt (List.mem_cons_of_mem e (List.mem_cons_self nxt more))
          have h2 : 0 ≤ e.remaining := hl e (List.mem_cons_self e _)
          omega
        · exact hl x (List.mem_cons_of_mem e (List.mem_cons_of_mem nxt hx1))
    · have hm1 : entMatches i h c e = false := by
        revert hm
        cases entMatches i h c e <;> simp
      simp only [scheduled_msg_cancel3, hm1, Bool.false_eq_true, if_false] at hx
      rcases List.mem_cons.mp hx with rfl | hx1
      · exact hl x (List.mem_cons_self x rest)
      · exact ih (fun y hy => hl y (List.mem_cons_of_mem e hy)) x hx1

theorem cancel_deltasOK (i : Nat) (h : Option Nat) (c : Nat) (l : SmdList)
    (hl : deltasOK l) : deltasOK (scheduled_msg_cancel3 i h c l).2 := by
  cases l with
  | nil => trivial
  | cons e rest =>
    obtain ⟨hhead, hrest⟩ := hl
    by_cases hm : entMatches i h c e = true
    · simp only [scheduled_msg_cancel3, hm, if_true]
      cases rest with
      | nil => trivial
      | cons nxt more =>
        simp only [foldHeadAdd]
        refine ⟨?_, fun x hx => hrest x (List.mem_cons_of_mem nxt hx)⟩
        show (1 : Int) ≤ nxt.remaining + e.remaining
        have h1 : 0 ≤ nxt.remaining := hrest nxt (List.mem_cons_self nxt more)
        omega
    · have hm1 : entMatches i h c e = false := by
        revert hm
        cases entMatches i h c e <;> simp
      simp only [scheduled_msg_cancel3, hm1, Bool.false_eq_true, if_false]
      exact ⟨hhead, cancel_all_nonneg i h c rest hrest⟩

theorem cancel_absList_mem (i : Nat) (h : Option Nat) (c : Nat) (l : SmdList) :
    ∀ p ∈ absList 0 (scheduled_msg_cancel3 i h c l).2, ∃ q ∈ absList 0 l,
      fireFrame q = fireFrame p := by
  intro p hp
  have hmem : fireFrame p ∈ (absList 0 (scheduled_msg_cancel3 i h c l).2).map fireFrame :=
    List.mem_map.mpr ⟨p, hp, rfl⟩
  rw [cancel_absList_eraseP i h c l 0] at hmem
  have hsub : fireFrame p ∈ (absList 0 l).map fireFrame :=
    (List.eraseP_sublist _).subset hmem
  rcases List.mem_map.mp hsub with ⟨q, hq, hqf⟩
  exact ⟨q, hq, hqf⟩

theorem fireFrame_eq_fields {p q : CmtSchMsgData × Int}
    (hpq : fireFrame p = fireFrame q) :
    p.1.msg = q.1.msg ∧ p.1.corenum = q.1.corenum ∧
    p.1.ms_requested = q.1.ms_requested ∧ p.1.schedAt = q.1.schedAt ∧ p.2 = q.2 := by
  simp only [fireFrame, FireInfo.mk.injEq] at hpq
  exact hpq

theorem consume0_proj (s : CmtState) :
    (consume0Step s).smd_ll = s.smd_ll ∧ (consume0Step s).time = s.time := by
  unfold consume0Step
  split
  · exact ⟨rfl, rfl⟩
  · split <;> exact ⟨rfl, rfl⟩

theorem consume1_proj (s : CmtState) :
    (consume1Step s).smd_ll = s.smd_ll ∧ (consume1Step s).time = s.time := by
  unfold consume1Step
  split
  · exact ⟨rfl, rfl⟩
  · split <;> exact ⟨rfl, rfl⟩

theorem schedInv_step (s : CmtState) (op : CmtOp) (hop : opSchedOK op)
    (hok : deltasOK s.smd_ll) (hinv : schedInvAt s.time s.smd_ll) :
    deltasOK (cmtStep s op).smd_ll ∧
    schedInvAt (cmtStep s op).time (cmtStep s op).smd_ll := by
  cases op with
  | tick =>
    have hproj := on_recurring_interrupt_proj s
    have hsmd : (cmtStep s .tick).smd_ll = (smdTick s.smd_ll).2 := hproj.1
    have htime : (cmtStep s .tick).time = s.time + 1 := hproj.2
    rw [hsmd, htime]
    refine ⟨smdTick_deltasOK _ hok, ?_⟩
    intro p hp
    obtain ⟨q, hq, hqf⟩ := smdTick_absList_shift _ hok p hp
    obtain ⟨hmsg, hcore, hreq, hsched, habs⟩ := fireFrame_eq_fields hqf
    obtain ⟨hq1, hq2⟩ := hinv q hq
    constructor
    · simp only at hreq hsched habs
      push_cast
      omega
    · simp only at hsched
      omega
  | schedule c ms m =>
    have hsmd : (cmtStep s (.schedule c ms m)).smd_ll =
        smdInsert { remaining := ms, corenum := c, ms_requested := ms, msg := m,
                    schedAt := s.time } s.smd_ll := rfl
    have htime : (cmtStep s (.schedule c ms m)).time = s.time := rfl
    rw [hsmd, htime]
    have hms : (1 : Int) ≤ ms := hop
    refine ⟨smdInsert_deltasOK _ _ hok hms, ?_⟩
    intro p hp
    rcases smdInsert_absList_mem _ s.smd_ll 0 p hp with hnew | ⟨q, hq, hqf⟩
    · obtain ⟨hmsg, hcore, hreq, hsched, habs⟩ := fireFrame_eq_fields hnew
      simp only at hmsg hcore hreq hsched habs
      constructor
      · rw [habs, hreq, hsched]
        ring
      · rw [hsched]
    · obtain ⟨hmsg, hcore, hreq, hsched, habs⟩ := fireFrame_eq_fields hqf
      obtain ⟨hq1, hq2⟩ := hinv q hq
      constructor
      · omega
      · omega
  | cancel i h c =>
    have hsmd : (cmtStep s (.cancel i h c)).smd_ll =
        (scheduled_msg_cancel3 i h c s.smd_ll).2 := rfl
    have htime : (cmtStep s (.cancel i h c)).time = s.time := rfl
    rw [hsmd, htime]
    refine ⟨cancel_deltasOK i h c _ hok, ?_⟩
    intro p hp
    obtain ⟨q, hq, hqf⟩ := cancel_absList_mem i h c _ p hp
    obtain ⟨hmsg, hcore, hreq, hsched, habs⟩ := fireFrame_eq_fields hqf
    obtain ⟨hq1, hq2⟩ := hinv q hq
    exact ⟨by omega, by omega⟩
  | consume0 =>
    obtain ⟨hsmd, htime⟩ := consume0_proj s
    show deltasOK (consume0Step s).smd_ll ∧
      schedInvAt (consume0Step s).time (consume0Step s).smd_ll
    rw [hsmd, htime]
    exact ⟨hok, hinv⟩
  | consume1 =>
    obtain ⟨hsmd, htime⟩ := consume1_proj s
    show deltasOK (consume1Step s).smd_ll ∧
      schedInvAt (consume1Step s).time (consume1Step s).smd_ll
    rw [hsmd, htime]
    exact ⟨hok, hinv⟩
  | post c m =>
    have hproj := post_to_core_proj c m s
    have hsmd : (cmtStep s (.post c m)).smd_ll = s.smd_ll := hproj.1
    have htime : (cmtStep s (.post c m)).time = s.time := hproj.2.1
    rw [hsmd, htime]
    exact ⟨hok, hinv⟩

theorem schedInv_runOps (ops : List CmtOp) :
    ∀ s : CmtState, (∀ op ∈ ops, opSchedOK op) →
      deltasOK s.smd_ll → schedInvAt s.time s.smd_ll →
      deltasOK (runOps s ops).smd_ll ∧
      schedInvAt (runOps s ops).time (runOps s ops).smd_ll := by
  induction ops with
  | nil => intro s _ hok hinv; exact ⟨hok, hinv⟩
  | cons op ops ih =>
    intro s hops hok hinv
    have hstep := schedInv_step s op (hops op (List.mem_cons_self op ops)) hok hinv
    exact ih (cmtStep s op) (fun o ho => hops o (List.mem_cons_of_mem op ho))
      hstep.1 hstep.2

/-- C1 (amended): for every sequence of schedule / cancel / tick /
dispatch operations in which every scheduled delay is at least 1 ms,
the sum of the `remaining` deltas from the head of the scheduled-message
list through any pending node (the node's `absList` prefix sum) equals
that node's requested delay minus the ticks elapsed since it was
scheduled, at every reachable state (hence at every point before the node
fires). The positivity restriction is forced by the counterexample: a
zero-delay schedule loses one tick for every node behind it. -/
theorem c1_delta_queue_invariant (ops : List CmtOp)
    (hops : ∀ op ∈ ops, opSchedOK op) :
    ∀ p ∈ absList 0 (runOps initState ops).smd_ll,
      p.2 = p.1.ms_requested -
        (((runOps initState ops).time : Int) - (p.1.schedAt : Int)) := by
  have hinit1 : deltasOK initState.smd_ll := trivial
  have hinit2 : schedInvAt initState.time initState.smd_ll := by
    intro p hp
    cases hp
  have hrun := schedInv_runOps ops initState hops hinit1 hinit2
  intro p hp
  exact (hrun.2 p hp).1

/-- C1 witness: a concrete schedule/tick/cancel sequence with all delays
≥ 1 satisfying the invariant. -/
theorem c1_delta_queue_invariant_witness :
    (∀ op ∈ c1WitnessOps, opSchedOK op) ∧
    ∀ p ∈ absList 0 (runOps initState c1WitnessOps).smd_ll,
      p.2 = p.1.ms_requested -
        (((runOps initState c1WitnessOps).time : Int) - (p.1.schedAt : Int)) :=
  ⟨by decide, c1_delta_queue_invariant c1WitnessOps (by decide)⟩

theorem hkCount_append (q : List CmtMsg) (m : CmtMsg) (h : Nat) :
    hkCount (q ++ [m]) h = hkCount q h + (if m.hdlr = some h then 1 else 0) := by
  simp only [hkCount, List.filter_append, List.length_append]
  congr 1
  by_cases hm : m.hdlr = some h
  · simp [hm]
  · simp [hm]

theorem hkCount_cons (m : CmtMsg) (q : List CmtMsg) (h : Nat) :
    hkCount (m :: q) h = (if m.hdlr = some h then 1 else 0) + hkCount q h := by
  simp only [hkCount, List.filter_cons]
  by_cases hm : m.hdlr = some h
  · simp [hm]
    omega
  · simp [hm]

theorem post_to_core_hkCount (c : Nat) (m : CmtMsg) (s : CmtState) (h : Nat)
    (hm : m.hdlr ≠ some h) :
    hkCount (post_to_core c m s).queue0 h = hkCount s.queue0 h ∧
    hkCount (post_to_core c m s).queue1 h = hkCount s.queue1 h := by
  unfold post_to_core
  split
  · refine ⟨?_, rfl⟩
    show hkCount (s.queue0 ++ [m]) h = hkCount s.queue0 h
    rw [hkCount_append, if_neg hm]
    omega
  · refine ⟨rfl, ?_⟩
    show hkCount (s.queue1 ++ [m]) h = hkCount s.queue1 h
    rw [hkCount_append, if_neg hm]
    omega

theorem postFiredList_hkCount (fired : List (Nat × CmtMsg)) (h : Nat) :
    ∀ s : CmtState, (∀ f ∈ fired, f.2.hdlr ≠ some h) →
      hkCount (postFiredList fired s).queue0 h = hkCount s.queue0 h ∧
      hkCount (postFiredList fired s).queue1 h = hkCount s.queue1 h := by
  induction fired with
  | nil => intro s _; exact ⟨rfl, rfl⟩
  | cons f rest ih =>
    intro s hclean
    have hstep := post_to_core_hkCount f.1 f.2 s h
      (hclean f (List.mem_cons_self f rest))
    have hrec := ih (post_to_core f.1 f.2 s)
      (fun g hg => hclean g (List.mem_cons_of_mem f hg))
    simp only [postFiredList, List.foldl_cons] at hrec ⊢
    exact ⟨hrec.1.trans hstep.1, hrec.2.trans hstep.2⟩

theorem fireDue_fired_msgs (l : SmdList) :
    ∀ f ∈ (fireDue l).1, ∃ e ∈ l, f.2 = e.msg := by
  induction l with
  | nil => intro f hf; cases hf
  | cons e rest ih =>
    intro f hf
    by_cases hle : e.remaining ≤ 0
    · simp only [fireDue, if_pos hle] at hf
      rcases List.mem_cons.mp hf with rfl | hf1
      · exact ⟨e, List.mem_cons_self e rest, rfl⟩
      · obtain ⟨y, hy, hmy⟩ := ih f hf1
        exact ⟨y, List.mem_cons_of_mem e hy, hmy⟩
    · simp only [fireDue, if_neg hle] at hf
      cases hf

theorem smdTick_fired_msgs (l : SmdList) :
    ∀ f ∈ (smdTick l).1, ∃ e ∈ l, f.2 = e.msg := by
  cases l with
  | nil => intro f hf; cases hf
  | cons e rest =>
    intro f hf
    by_cases hle : ({ e with remaining := e.remaining - 1 } : CmtSchMsgData).remaining ≤ 0
    · simp only [smdTick, if_pos hle] at hf
      obtain ⟨y, hy, hmy⟩ := fireDue_fired_msgs _ f hf
      rcases List.mem_cons.mp hy with rfl | hy1
      · exact ⟨e, List.mem_cons_self e rest, hmy⟩
      · exact ⟨y, List.mem_cons_of_mem e hy1, hmy⟩
    · simp only [smdTick, if_neg hle] at hf
      cases hf

theorem smdTick_rest_msgs (l : SmdList) :
    ∀ x ∈ (smdTick l).2, ∃ e ∈ l, x.msg = e.msg := by
  cases l with
  | nil => intro x hx; cases hx
  | cons e rest =>
    intro x hx
    by_cases hle : ({ e with remaining := e.remaining - 1 } : CmtSchMsgData).remaining ≤ 0
    · simp only [smdTick, if_pos hle] at hx
      have hx1 := fireDue_rest_mem _ x hx
      rcases List.mem_cons.mp hx1 with rfl | hx2
      · exact ⟨e, List.mem_cons_self e rest, rfl⟩
      · exact ⟨x, List.mem_cons_of_mem e hx2, rfl⟩
    · simp only [smdTick, if_neg hle] at hx
      rcases List.mem_cons.mp hx with rfl | hx1
      · exact ⟨e, List.mem_cons_self e rest, rfl⟩
      · exact ⟨x, List.mem_cons_of_mem e hx1, rfl⟩

theorem smdInsert_msgs (n : CmtSchMsgData) (l : SmdList) :
    ∀ x ∈ smdInsert n l, x.msg = n.msg ∨ ∃ y ∈ l, x.msg = y.msg := by
  induction l generalizing n with
  | nil =>
    intro x hx
    rcases List.mem_singleton.mp hx with rfl
    exact Or.inl rfl
  | cons e rest ih =>
    intro x hx
    by_cases hle : n.remaining ≤ e.remaining
    · simp only [smdInsert, if_pos hle] at hx
      rcases List.mem_cons.mp hx with rfl | hx1
      · exact Or.inl rfl
      · rcases List.mem_cons.mp hx1 with rfl | hx2
        · exact Or.inr ⟨e, List.mem_cons_self e rest, rfl⟩
        · exact Or.inr ⟨x, List.mem_cons_of_mem e hx2, rfl⟩
    · simp only [smdInsert, if_neg hle] at hx
      rcases List.mem_cons.mp hx with rfl | hx1
      · exact Or.inr ⟨x, List.mem_cons_self x rest, rfl⟩
      · rcases ih { n with remaining := n.remaining - e.remaining } x hx1 with hL | ⟨y, hy, hmy⟩
        · exact Or.inl hL
        · exact Or.inr ⟨y, List.mem_cons_of_mem e hy, hmy⟩

theorem cancel_msgs (i : Nat) (h : Option Nat) (c : Nat) (l : SmdList) :
    ∀ x ∈ (scheduled_msg_cancel3 i h c l).2, ∃ y ∈ l, x.msg = y.msg := by
  induction l with
  | nil => intro x hx; cases hx
  | cons e rest ih =>
    intro x hx
    by_cases hm : entMatches i h c e = true
    · simp only [scheduled_msg_cancel3, hm, if_true] at hx
      cases rest with
      | nil => cases hx
      | cons nxt more =>
        simp only [foldHeadAdd] at hx
        rcases List.mem_cons.mp hx with rfl | hx1
        · exact ⟨nxt, List.mem_cons_of_mem e (List.mem_cons_self nxt more), rfl⟩
        · exact ⟨x, List.mem_cons_of_mem e (List.mem_cons_of_mem nxt hx1), rfl⟩
    · have hm1 : entMatches i h c e = false := by
        revert hm
        cases entMatches i h c e <;> simp
      simp only [scheduled_msg_cancel3, hm1, Bool.false_eq_true, if_false] at hx
      rcases List.mem_cons.mp hx with rfl | hx1
      · exact ⟨x, List.mem_cons_self x rest, rfl⟩
      · obtain ⟨y, hy, hmy⟩ := ih x hx1
        exact ⟨y, List.mem_cons_of_mem e hy, hmy⟩

theorem hkPost0_inv (s : CmtState)
    (h0 : hkCount s.queue0 HOUSEKEEP0_HDLR_ID = (if s.housekeep0_msg_pending then 1 else 0)) :
    hkCount (hkPost0 s).queue0 HOUSEKEEP0_HDLR_ID =
      (if (hkPost0 s).housekeep0_msg_pending then 1 else 0) := by
  unfold hkPost0
  split
  · rename_i hp
    rw [h0, if_pos hp]
  · rename_i hp
    show hkCount (s.queue0 ++ [hkMsg0]) HOUSEKEEP0_HDLR_ID = (if true then 1 else 0)
    rw [hkCount_append, if_pos (show hkMsg0.hdlr = some HOUSEKEEP0_HDLR_ID from rfl)]
    have hfalse : s.housekeep0_msg_pending = false := by
      revert hp
      cases s.housekeep0_msg_pending <;> simp
    rw [hfalse] at h0
    simp only [Bool.false_eq_true, if_false] at h0
    simp [h0]

theorem hkPost1_inv (s : CmtState)
    (h1 : hkCount s.queue1 HOUSEKEEP1_HDLR_ID = (if s.housekeep1_msg_pending then 1 else 0)) :
    hkCount (hkPost1 s).queue1 HOUSEKEEP1_HDLR_ID =
      (if (hkPost1 s).housekeep1_msg_pending then 1 else 0) := by
  unfold hkPost1
  split
  · rename_i hp
    rw [h1, if_pos hp]
  · rename_i hp
    show hkCount (s.queue1 ++ [hkMsg1]) HOUSEKEEP1_HDLR_ID = (if true then 1 else 0)
    rw [hkCount_append, if_pos (show hkMsg1.hdlr = some HOUSEKEEP1_HDLR_ID from rfl)]
    have hfalse : s.housekeep1_msg_pending = false := by
      revert hp
      cases s.housekeep1_msg_pending <;> simp
    rw [hfalse] at h1
    simp only [Bool.false_eq_true, if_false] at h1
    simp [h1]

theorem hkPost_inv (s : CmtState)
    (h0 : hkCount s.queue0 HOUSEKEEP0_HDLR_ID = (if s.housekeep0_msg_pending then 1 else 0))
    (h1 : hkCount s.queue1 HOUSEKEEP1_HDLR_ID = (if s.housekeep1_msg_pending then 1 else 0)) :
    hkCount (hkPost s).queue0 HOUSEKEEP0_HDLR_ID =
      (if (hkPost s).housekeep0_msg_pending then 1 else 0) ∧
    hkCount (hkPost s).queue1 HOUSEKEEP1_HDLR_ID =
      (if (hkPost s).housekeep1_msg_pending then 1 else 0) := by
  unfold hkPost
  split
  · have hA0 := hkPost0_inv s h0
    have hA1 : hkCount (hkPost0 s).queue1 HOUSEKEEP1_HDLR_ID =
        (if (hkPost0 s).housekeep1_msg_pending then 1 else 0) := by
      rw [(hkPost0_proj s).2.2.2.2, (hkPost0_proj s).2.2.2.1]
      exact h1
    have hB1 := hkPost1_inv (hkPost0 s) hA1
    have hB0 : hkCount (hkPost1 (hkPost0 s)).queue0 HOUSEKEEP0_HDLR_ID =
        (if (hkPost1 (hkPost0 s)).housekeep0_msg_pending then 1 else 0) := by
      rw [(hkPost1_proj (hkPost0 s)).2.2.2.2, (hkPost1_proj (hkPost0 s)).2.2.2.1]
      exact hA0
    exact ⟨hB0, hB1⟩
  · exact ⟨h0, h1⟩

theorem hkPost_smd_ll (s : CmtState) : (hkPost s).smd_ll = s.smd_ll :=
  (hkPost_proj s).1

theorem hkInv_step (s : CmtState) (op : CmtOp) (hop : opHdlrOK op)
    (hinv : HkInv s) : HkInv (cmtStep s op) := by
  obtain ⟨h0, h1, hc⟩ := hinv
  cases op with
  | tick =>
    show HkInv (_on_recurring_interrupt s)
    unfold _on_recurring_interrupt
    have hfired0 : ∀ f ∈ (smdTick s.smd_ll).1, f.2.hdlr ≠ some HOUSEKEEP0_HDLR_ID := by
      intro f hf
      obtain ⟨e, he, hme⟩ := smdTick_fired_msgs _ f hf
      rw [hme]
      exact (hc e he).1
    have hfired1 : ∀ f ∈ (smdTick s.smd_ll).1, f.2.hdlr ≠ some HOUSEKEEP1_HDLR_ID := by
      intro f hf
      obtain ⟨e, he, hme⟩ := smdTick_fired_msgs _ f hf
      rw [hme]
      exact (hc e he).2
    have hq0 := (postFiredList_hkCount (smdTick s.smd_ll).1 HOUSEKEEP0_HDLR_ID
      { s with smd_ll := (smdTick s.smd_ll).2, time := s.time + 1 } hfired0).1
    have hq1 := (postFiredList_hkCount (smdTick s.smd_ll).1 HOUSEKEEP1_HDLR_ID
      { s with smd_ll := (smdTick s.smd_ll).2, time := s.time + 1 } hfired1).2
    have hbody := cmt_tick_body_proj s
    have hA0 : hkCount (cmt_tick_body s).queue0 HOUSEKEEP0_HDLR_ID =
        (if (cmt_tick_body s).housekeep0_msg_pending then 1 else 0) := by
      rw [hbody.2.2.1]
      exact hq0.trans h0
    have hA1 : hkCount (cmt_tick_body s).queue1 HOUSEKEEP1_HDLR_ID =
        (if (cmt_tick_body s).housekeep1_msg_pending then 1 else 0) := by
      rw [hbody.2.2.2]
      exact hq1.trans h1
    have hfin := hkPost_inv
      { cmt_tick_body s with
          housekeep_rt := ((cmt_tick_body s).housekeep_rt + 1) % 16 } hA0 hA1
    refine ⟨hfin.1, hfin.2, ?_⟩
    have hsmd : (hkPost { cmt_tick_body s with
        housekeep_rt := ((cmt_tick_body s).housekeep_rt + 1) % 16 }).smd_ll =
        (smdTick s.smd_ll).2 :=
      (hkPost_smd_ll _).trans hbody.1
    rw [hsmd]
    intro e he
    obtain ⟨y, hy, hmy⟩ := smdTick_rest_msgs _ e he
    rw [hmy]
    exact hc y hy
  | schedule c ms m =>
    refine ⟨h0, h1, ?_⟩
    intro x hx
    have hx1 : x ∈ smdInsert { remaining := ms, corenum := c, ms_requested := ms,
                               msg := m, schedAt := s.time } s.smd_ll := hx
    rcases smdInsert_msgs _ s.smd_ll x hx1 with hL | ⟨y, hy, hmy⟩
    · rw [hL]
      exact hop
    · rw [hmy]
      exact hc y hy
  | cancel i h c =>
    refine ⟨h0, h1, ?_⟩
    intro x hx
    obtain ⟨y, hy, hmy⟩ := cancel_msgs i h c s.smd_ll x hx
    rw [hmy]
    exact hc y hy
  | consume0 =>
    show HkInv (consume0Step s)
    unfold consume0Step
    split
    · exact ⟨h0, h1, hc⟩
    · rename_i m rest hq
      split
      · rename_i hm
        refine ⟨?_, h1, hc⟩
        show hkCount rest HOUSEKEEP0_HDLR_ID = (if false then 1 else 0)
        rw [hq, hkCount_cons, if_pos hm] at h0
        cases hpend : s.housekeep0_msg_pending
        · rw [hpend] at h0
          simp only [Bool.false_eq_true, if_false] at h0
          simp only [Bool.false_eq_true, if_false]
          omega
        · rw [hpend] at h0
          simp only [if_true] at h0
          simp only [Bool.false_eq_true, if_false]
          omega
      · rename_i hm
        refine ⟨?_, h1, hc⟩
        show hkCount rest HOUSEKEEP0_HDLR_ID =
          (if s.housekeep0_msg_pending then 1 else 0)
        rw [hq, hkCount_cons, if_neg hm] at h0
        omega
  | consume1 =>
    show HkInv (consume1Step s)
    unfold consume1Step
    split
    · exact ⟨h0, h1, hc⟩
    · rename_i m rest hq
      split
      · rename_i hm
        refine ⟨h0, ?_, hc⟩
        show hkCount rest HOUSEKEEP1_HDLR_ID = (if false then 1 else 0)
        rw [hq, hkCount_cons, if_pos hm] at h1
        cases hpend : s.housekeep1_msg_pending
        · rw [hpend] at h1
          simp only [Bool.false_eq_true, if_false] at h1
          simp only [Bool.false_eq_true, if_false]
          omega
        · rw [hpend] at h1
          simp only [if_true] at h1
          simp only [Bool.false_eq_true, if_false]
          omega
      · rename_i hm
        refine ⟨h0, ?_, hc⟩
        show hkCount rest HOUSEKEEP1_HDLR_ID =
          (if s.housekeep1_msg_pending then 1 else 0)
        rw [hq, hkCount_cons, if_neg hm] at h1
        omega
  | post c m =>
    have hop1 : m.hdlr ≠ some HOUSEKEEP0_HDLR_ID ∧ m.hdlr ≠ some HOUSEKEEP1_HDLR_ID := hop
    have hcnt0 := (post_to_core_hkCount c m s HOUSEKEEP0_HDLR_ID hop1.1).1
    have hcnt1 := (post_to_core_hkCount c m s HOUSEKEEP1_HDLR_ID hop1.2).2
    have hproj := post_to_core_proj c m s
    refine ⟨?_, ?_, ?_⟩
    · show hkCount (post_to_core c m s).queue0 HOUSEKEEP0_HDLR_ID =
        (if (post_to_core c m s).housekeep0_msg_pending then 1 else 0)
      rw [hcnt0, hproj.2.2.2.1]
      exact h0
    · show hkCount (post_to_core c m s).queue1 HOUSEKEEP1_HDLR_ID =
        (if (post_to_core c m s).housekeep1_msg_pending then 1 else 0)
      rw [hcnt1, hproj.2.2.2.2]
      exact h1
    · show smdClean (post_to_core c m s).smd_ll
      rw [show (post_to_core c m s).smd_ll = s.smd_ll from hproj.1]
      exact hc

theorem hkInv_runOps (ops : List CmtOp) :
    ∀ s : CmtState, (∀ op ∈ ops, opHdlrOK op) → HkInv s → HkInv (runOps s ops) := by
  induction ops with
  | nil => intro s _ hinv; exact hinv
  | cons op ops ih =>
    intro s hops hinv
    exact ih (cmtStep s op) (fun o ho => hops o (List.mem_cons_of_mem op ho))
      (hkInv_step s op (hops op (List.mem_cons_self op ops)) hinv)

/-- C9: in every run of the system in which client-supplied messages
never carry the file-static housekeeping handlers (those are private to
cmt.c), each core's queue holds a housekeeping message (MSG_PERIODIC_RT
with the core's `_housekeepN_msg_hdlr` as forced handler) exactly when
that core's pending flag is set — so at no reachable state is more than
one housekeeping message pending per core. The flag is set by the tick
ISR's 16-tick wrap when it posts, and cleared only by the core's
housekeeping handler when the message is consumed. -/
theorem c9_housekeeping_at_most_one_pending (ops : List CmtOp)
    (hops : ∀ op ∈ ops, opHdlrOK op) :
    hkCount (runOps initState ops).queue0 HOUSEKEEP0_HDLR_ID =
      (if (runOps initState ops).housekeep0_msg_pending then 1 else 0) ∧
    hkCount (runOps initState ops).queue1 HOUSEKEEP1_HDLR_ID =
      (if (runOps initState ops).housekeep1_msg_pending then 1 else 0) ∧
    hkCount (runOps initState ops).queue0 HOUSEKEEP0_HDLR_ID ≤ 1 ∧
    hkCount (runOps initState ops).queue1 HOUSEKEEP1_HDLR_ID ≤ 1 := by
  have hinit : HkInv initState := by
    refine ⟨rfl, rfl, ?_⟩
    intro e he
    cases he
  obtain ⟨hA, hB, _⟩ := hkInv_runOps ops initState hops hinit
  refine ⟨hA, hB, ?_, ?_⟩
  · rw [hA]
    split <;> omega
  · rw [hB]
    split <;> omega

/-- C9 witness: two 16-tick wraps with a consume in between satisfy the
single-pending property on both queues. -/
theorem c9_housekeeping_at_most_one_pending_witness :
    (∀ op ∈ c9WitnessOps, opHdlrOK op) ∧
    (hkCount (runOps initState c9WitnessOps).queue0 HOUSEKEEP0_HDLR_ID =
      (if (runOps initState c9WitnessOps).housekeep0_msg_pending then 1 else 0) ∧
    hkCount (runOps initState c9WitnessOps).queue1 HOUSEKEEP1_HDLR_ID =
      (if (runOps initState c9WitnessOps).housekeep1_msg_pending then 1 else 0) ∧
    hkCount (runOps initState c9WitnessOps).queue0 HOUSEKEEP0_HDLR_ID ≤ 1 ∧
    hkCount (runOps initState c9WitnessOps).queue1 HOUSEKEEP1_HDLR_ID ≤ 1) :=
  ⟨by decide, c9_housekeeping_at_most_one_pending c9WitnessOps (by decide)⟩
